import Mathlib

/-!
Shallow embedding of the md-notething editing core (src/src/document.rs).

The Rust code mutates `Document`, `Table` and `Paragraph` values in place;
here every dispatch function is an explicit state transformer returning
`Option (Bool × State)`.  A `none` result models a hard failure of the Rust
code: an unimplemented branch, an `unwrap`/`expect` of a missing value, or a
`usize` subtraction that underflows (checked, debug-build semantics).
`some (b, s)` models normal termination with the boolean "handled" result `b`
and the mutated state `s`.  Grapheme display widths come from the external
unicode-width crate, so all functions take the width measure `W` as a
parameter.
-/

namespace MdNote

/-- Characters is the newtype over the grapheme list (Rust: `Characters(Vec<String>)`). -/
abbrev Characters := List String

/-- Motion enum from the source; only `Left` is ever used by `Delete`. -/
inductive Motion where
  | Up
  | Left
  | Down
  | Right
deriving DecidableEq

/-- Command vocabulary of the dispatch protocol. -/
inductive Command where
  | Up
  | Left
  | Down
  | Right
  | CursorEnterH : Bool → Command
  | CursorEnterV : Nat → Bool → Command
  | CursorLeave
  | Insert : Characters → Command
  | Delete : Motion → Command
deriving DecidableEq

/-- Rust `Command::horizontal`. -/
def Command.horizontal : Command → Bool
  | Command.Left => true
  | Command.Right => true
  | Command.CursorEnterH _ => true
  | _ => false

/-- A Paragraph: grapheme sequence plus optional cursor index. -/
structure Paragraph where
  text : List String
  cursor : Option Nat
deriving DecidableEq

/-- Rust `Paragraph::get_normalized_cursor`: sum of capped widths of the
graphemes strictly before the cursor. -/
def Paragraph.get_normalized_cursor (W : String → Nat) (p : Paragraph) : Option Nat :=
  p.cursor.map (fun c => ((p.text.take c).map (fun s => min (W s) 2)).sum)

/-- Loop body of Rust `Paragraph::set_normalized_cursor`: walk the capped
widths, consuming the remaining target column, counting graphemes passed. -/
def setNormAux : Nat → List Nat → Nat → Nat
  | 0, _, acc => acc
  | _ + 1, [], acc => acc
  | n + 1, w :: ws, acc => if w ≤ n + 1 then setNormAux (n + 1 - w) ws (acc + 1) else acc

/-- Rust `Paragraph::set_normalized_cursor`. -/
def Paragraph.set_normalized_cursor (W : String → Nat) (p : Paragraph) (n : Nat) : Paragraph :=
  { p with cursor := some (setNormAux n (p.text.map (fun s => min (W s) 2)) 0) }

/-- Rust `impl Commandee for Paragraph`.  Each arm of the source match is
reproduced, including the guard fall-through to the default arm.  `none`
models the todo on multi-line insert, the underflowing `len - 1` guard
computations on an empty text, and the out-of-range `Vec::remove`/`split_off`
conditions. -/
def Paragraph.command (W : String → Nat) (p : Paragraph) (cmd : Command) :
    Option (Bool × Paragraph) :=
  match cmd, p.cursor with
  | Command.Left, some i =>
      if i ≠ 0 then some (true, { p with cursor := some (i - 1) })
      else some (false, p)
  | Command.Right, some i =>
      if p.text.length = 0 then none
      else if i ≠ p.text.length - 1 then some (true, { p with cursor := some (i + 1) })
      else some (false, p)
  | Command.CursorLeave, some _ => some (true, { p with cursor := none })
  | Command.CursorEnterH false, _ => some (true, { p with cursor := some 0 })
  | Command.CursorEnterH true, _ =>
      if p.text.length = 0 then none
      else some (true, { p with cursor := some (p.text.length - 1) })
  | Command.CursorEnterV col _, _ => some (true, p.set_normalized_cursor W col)
  | Command.Delete Motion.Left, some i =>
      if 0 < i then
        if i - 1 < p.text.length then
          some (true, { p with text := p.text.eraseIdx (i - 1), cursor := some (i - 1) })
        else none
      else some (false, p)
  | Command.Insert chars, some i =>
      if "\n" ∈ chars then none
      else if i ≤ p.text.length then
        some (true, { p with text := p.text.take i ++ chars ++ p.text.drop i,
                             cursor := some (i + chars.length) })
      else none
  | _, _ => some (false, p)

/-- A Table: sparse grid of Paragraphs keyed by `(column, row)`, an optional
active cell, and declared dimensions (Rust stores the cells in a `HashMap`;
here an association list with the same lookup/replace semantics). -/
structure Table where
  cells : List ((Nat × Nat) × Paragraph)
  active_cell : Option (Nat × Nat)
  height : Nat
  width : Nat
deriving DecidableEq

/-- Lookup in the cell map (Rust `HashMap::get` / `get_mut`). -/
def lookupCell (k : Nat × Nat) : List ((Nat × Nat) × Paragraph) → Option Paragraph
  | [] => none
  | (q, p) :: rest => if q = k then some p else lookupCell k rest

/-- Replacing the binding of an existing key (the write back through a Rust
`get_mut` borrow). -/
def updateCell (k : Nat × Nat) (p : Paragraph) :
    List ((Nat × Nat) × Paragraph) → List ((Nat × Nat) × Paragraph)
  | [] => []
  | (q, r) :: rest => if q = k then (q, p) :: rest else (q, r) :: updateCell k p rest

/-- Rust `Table::neighbor`.  The outer `Option` layer is the failure monad:
`none` is the `usize` underflow of `x - 1`/`y - 1` at the zero edge; the
inner `Option` is the `Option<(usize, usize)>` the Rust function returns. -/
def Table.neighbor (t : Table) (cmd : Command) : Option (Option (Nat × Nat)) :=
  match t.active_cell with
  | none => some none
  | some ac =>
    match cmd with
    | Command.Up => if ac.2 = 0 then none else some (some (ac.1, ac.2 - 1))
    | Command.Left => if ac.1 = 0 then none else some (some (ac.1 - 1, ac.2))
    | Command.Down => some (some (ac.1, ac.2 + 1))
    | Command.Right => some (some (ac.1 + 1, ac.2))
    | _ => some none

/-- The focus-transfer arm of Rust `Table::command`: read the normalized
cursor of the active cell (an `unwrap`), send `CursorLeave` to it, send the
matching `CursorEnter*` to the neighbor cell (an `unwrap` of the neighbor
lookup), and point `active_cell` at the neighbor.  `t1` already holds the
active cell mutated to `cell1` by the forwarded command. -/
def tableMove (W : String → Nat) (t1 : Table) (cell1 : Paragraph) (ac n : Nat × Nat)
    (cmd : Command) : Option (Bool × Table) :=
  match cell1.get_normalized_cursor W with
  | none => none
  | some col =>
    match Paragraph.command W cell1 Command.CursorLeave with
    | none => none
    | some (_, cell2) =>
      let cellsA := updateCell ac cell2 t1.cells
      match lookupCell n cellsA with
      | none => none
      | some ncell =>
        match Paragraph.command W ncell
            (if cmd.horizontal then Command.CursorEnterH (decide (cmd = Command.Left))
             else Command.CursorEnterV col (decide (cmd = Command.Up))) with
        | none => none
        | some (_, ncell2) =>
          some (true, { t1 with cells := updateCell n ncell2 cellsA, active_cell := some n })

/-- The match of Rust `Table::command` over (command, handled-by-cell,
neighbor), arms in source order; the final `none` is the `todo` arm. -/
def tableDispatch (W : String → Nat) (t1 : Table) (cell1 : Paragraph) (ac : Nat × Nat)
    (cmd : Command) (handled : Bool) (nb : Option (Nat × Nat)) : Option (Bool × Table) :=
  match cmd, handled, nb with
  | Command.Up, false, some n => tableMove W t1 cell1 ac n Command.Up
  | Command.Down, false, some n => tableMove W t1 cell1 ac n Command.Down
  | Command.Left, false, some n => tableMove W t1 cell1 ac n Command.Left
  | Command.Right, false, some n => tableMove W t1 cell1 ac n Command.Right
  | Command.Left, true, _ => some (true, t1)
  | Command.Right, true, _ => some (true, t1)
  | Command.Left, false, none => some (false, t1)
  | Command.Right, false, none => some (false, t1)
  | _, true, _ => some (true, t1)
  | Command.Delete Motion.Left, _, _ => some (true, t1)
  | _, _, _ => none

/-- The no-active-cell entry arm of Rust `Table::command`: set the active
cell to `(0, 0)` and forward the enter command into it (`unwrap` of the cell
lookup can fail). -/
def tableEnter (W : String → Nat) (t : Table) (cmd : Command) : Option (Bool × Table) :=
  match lookupCell (0, 0) t.cells with
  | none => none
  | some c0 =>
    match Paragraph.command W c0 cmd with
    | none => none
    | some (_, c1) =>
      some (true, { t with active_cell := some (0, 0), cells := updateCell (0, 0) c1 t.cells })

/-- Rust `impl Commandee for Table`.  With an active cell: compute the
neighbor (can underflow), fetch the active cell (an `expect`), forward the
command to it, then dispatch on the triple.  Without one: only
`CursorEnterH(false)` and `CursorEnterV(_, false)` are accepted. -/
def Table.command (W : String → Nat) (t : Table) (cmd : Command) : Option (Bool × Table) :=
  match t.active_cell with
  | some ac =>
    match t.neighbor cmd with
    | none => none
    | some nb =>
      match lookupCell ac t.cells with
      | none => none
      | some cell =>
        match Paragraph.command W cell cmd with
        | none => none
        | some (handled, cell1) =>
          tableDispatch W { t with cells := updateCell ac cell1 t.cells } cell1 ac cmd handled nb
  | none =>
    match cmd with
    | Command.CursorEnterH false => tableEnter W t cmd
    | Command.CursorEnterV _ false => tableEnter W t cmd
    | _ => some (false, t)

/-- A Document: ordered elements (the only Element variant is Table) and the
active element index. -/
structure Document where
  elements : List Table
  active_element : Nat
deriving DecidableEq

/-- The focus-transfer arm of Rust `Document::command`: `CursorLeave` to the
current element, move `active_element` to `na`, `CursorEnterH` into the new
element. -/
def docMove (W : String → Nat) (d : Document) (el1 : Table) (na : Nat) (fromRight : Bool) :
    Option (Bool × Document) :=
  match Table.command W el1 Command.CursorLeave with
  | none => none
  | some (_, el2) =>
    let els2 := d.elements.set d.active_element el2
    match els2.get? na with
    | none => none
    | some tgt =>
      match Table.command W tgt (Command.CursorEnterH fromRight) with
      | none => none
      | some (_, tgt2) =>
        some (true, { elements := els2.set na tgt2, active_element := na })

/-- Rust `impl Commandee for Document`: index the active element (a panic if
out of bounds), forward the command, and on an unhandled directional command
move focus to the previous/next element when one exists; otherwise the
command is absorbed and the dispatch returns `true`. -/
def Document.command (W : String → Nat) (d : Document) (cmd : Command) :
    Option (Bool × Document) :=
  match d.elements.get? d.active_element with
  | none => none
  | some el =>
    match Table.command W el cmd with
    | none => none
    | some (handled, el1) =>
      match cmd, handled with
      | Command.Up, false | Command.Left, false =>
        if 0 < d.active_element then
          docMove W d el1 (d.active_element - 1) true
        else
          some (true, { d with elements := d.elements.set d.active_element el1 })
      | Command.Down, false | Command.Right, false =>
        if d.active_element < d.elements.length - 1 then
          docMove W d el1 (d.active_element + 1) false
        else
          some (true, { d with elements := d.elements.set d.active_element el1 })
      | _, _ => some (false, { d with elements := d.elements.set d.active_element el1 })

/-- A fixed width measure: every grapheme one column wide (used to
instantiate concrete scenarios that do not involve wide characters). -/
def unitWidth : String → Nat := fun _ => 1

/-- The cursor-bound invariant of the spec: a set cursor index never exceeds
the grapheme count. -/
def cursorInBounds (p : Paragraph) : Prop :=
  match p.cursor with
  | none => True
  | some i => i ≤ p.text.length

/-- The focus invariant of the spec: an active cell exists in the map and is
the unique cell whose Paragraph has a set cursor; with no active cell no
Paragraph has one. -/
def TableInv (t : Table) : Prop :=
  (∀ c, t.active_cell = some c →
      (∃ p, lookupCell c t.cells = some p ∧ p.cursor.isSome = true) ∧
      ∀ k p, k ≠ c → lookupCell k t.cells = some p → p.cursor = none) ∧
  (t.active_cell = none → ∀ k p, lookupCell k t.cells = some p → p.cursor = none)

theorem lookupCell_updateCell_self (k : Nat × Nat) (p v : Paragraph)
    (l : List ((Nat × Nat) × Paragraph)) (h : lookupCell k l = some v) :
    lookupCell k (updateCell k p l) = some p := by
  induction l with
  | nil => simp [lookupCell] at h
  | cons hd tl ih =>
    obtain ⟨q, r⟩ := hd
    by_cases hq : q = k
    · subst hq
      simp [lookupCell, updateCell]
    · simp [lookupCell, updateCell, hq] at h ⊢
      exact ih h

theorem lookupCell_updateCell_ne (k j : Nat × Nat) (p : Paragraph)
    (l : List ((Nat × Nat) × Paragraph)) (h : j ≠ k) :
    lookupCell j (updateCell k p l) = lookupCell j l := by
  induction l with
  | nil => simp [updateCell]
  | cons hd tl ih =>
    obtain ⟨q, r⟩ := hd
    by_cases hq : q = k
    · subst hq
      simp [lookupCell, updateCell, Ne.symm h]
    · by_cases hj : q = j <;> simp [lookupCell, updateCell, hq, hj, h, ih]

theorem updateCell_id (k : Nat × Nat) (v : Paragraph)
    (l : List ((Nat × Nat) × Paragraph)) (h : lookupCell k l = some v) :
    updateCell k v l = l := by
  induction l with
  | nil => simp [lookupCell] at h
  | cons hd tl ih =>
    obtain ⟨q, r⟩ := hd
    by_cases hq : q = k
    · subst hq
      simp [lookupCell] at h
      simp [updateCell, h]
    · simp [lookupCell, hq] at h
      simp [updateCell, hq, ih h]

theorem setNormAux_le (ws : List Nat) : ∀ n acc, setNormAux n ws acc ≤ acc + ws.length := by
  induction ws with
  | nil => intro n acc; cases n <;> simp [setNormAux]
  | cons w tl ih =>
    intro n acc
    cases n with
    | zero => simp [setNormAux]
    | succ m =>
      simp only [setNormAux]
      by_cases hw : w ≤ m + 1
      · simpa [hw, Nat.add_comm, Nat.add_left_comm] using ih (m + 1 - w) (acc + 1)
      · simp [hw]

theorem cursorLeave_cursor_none (W : String → Nat) (p : Paragraph) (x : Bool) (r : Paragraph)
    (h : Paragraph.command W p Command.CursorLeave = some (x, r)) : r.cursor = none := by
  obtain ⟨t, c⟩ := p
  cases c <;> simp [Paragraph.command] at h <;> simp [← h.2]

theorem enterH_cursor_isSome (W : String → Nat) (p : Paragraph) (bb : Bool) (x : Bool)
    (r : Paragraph) (h : Paragraph.command W p (Command.CursorEnterH bb) = some (x, r)) :
    r.cursor.isSome = true := by
  obtain ⟨t, c⟩ := p
  cases bb
  · simp [Paragraph.command] at h
    simp [← h.2]
  · simp [Paragraph.command] at h
    rcases h with ⟨hne, hx, hr⟩
    simp [← hr]

theorem enterV_cursor_isSome (W : String → Nat) (p : Paragraph) (col : Nat) (bb : Bool)
    (x : Bool) (r : Paragraph)
    (h : Paragraph.command W p (Command.CursorEnterV col bb) = some (x, r)) :
    r.cursor.isSome = true := by
  obtain ⟨t, c⟩ := p
  simp [Paragraph.command, Paragraph.set_normalized_cursor] at h
  simp [← h.2]

theorem command_cursor_isSome (W : String → Nat) (p : Paragraph) (cmd : Command) (x : Bool)
    (r : Paragraph) (hne : cmd ≠ Command.CursorLeave) (hp : p.cursor.isSome = true)
    (h : Paragraph.command W p cmd = some (x, r)) : r.cursor.isSome = true := by
  obtain ⟨t, c⟩ := p
  obtain ⟨i, rfl⟩ := Option.isSome_iff_exists.mp hp
  cases cmd with
  | Left =>
    by_cases hi : i = 0 <;> simp [Paragraph.command, hi] at h <;> simp [← h.2]
  | Right =>
    simp [Paragraph.command] at h
    rcases h with ⟨hlen, h⟩
    by_cases hi : i = t.length - 1 <;> simp [hi] at h <;> simp [← h.2]
  | CursorLeave => exact absurd rfl hne
  | CursorEnterH bb => exact enterH_cursor_isSome W _ bb x r h
  | CursorEnterV col bb => exact enterV_cursor_isSome W _ col bb x r h
  | Insert chars =>
    simp [Paragraph.command] at h
    rcases h with ⟨hnl, hle, hx, hr⟩
    simp [← hr]
  | Delete m =>
    cases m with
    | Left =>
      by_cases hi : 0 < i
      · simp [Paragraph.command, hi] at h
        rcases h with ⟨hlt, hx, hr⟩
        simp [← hr]
      · simp [Paragraph.command, hi] at h
        simp [← h.2]
    | Up => simp [Paragraph.command] at h; simp [← h.2]
    | Down => simp [Paragraph.command] at h; simp [← h.2]
    | Right => simp [Paragraph.command] at h; simp [← h.2]
  | Up => simp [Paragraph.command] at h; simp [← h.2]
  | Down => simp [Paragraph.command] at h; simp [← h.2]

theorem eraseIdx_append_cons {α : Type _} (a : List α) (x : α) (b : List α) :
    (a ++ x :: b).eraseIdx a.length = a ++ b := by
  induction a with
  | nil => simp
  | cons hd tl ih => simp [List.eraseIdx, ih]

theorem list_set_get_id {α : Type _} (l : List α) (n : Nat) (x : α) (h : l.get? n = some x) :
    l.set n x = l := by
  induction l generalizing n with
  | nil => exact Option.noConfusion h
  | cons hd tl ih =>
    cases n with
    | zero =>
      injection h with h1
      show x :: tl = hd :: tl
      rw [h1]
    | succ m =>
      show hd :: tl.set m x = hd :: tl
      rw [ih m h]

theorem tableMove_true (W : String → Nat) (t1 : Table) (cell1 : Paragraph) (ac n : Nat × Nat)
    (cmd : Command) (b : Bool) (t' : Table) (h : tableMove W t1 cell1 ac n cmd = some (b, t')) :
    b = true := by
  simp only [tableMove] at h
  split at h
  · simp at h
  · split at h
    · simp at h
    · split at h
      · simp at h
      · split at h
        · simp at h
        · injection h with h2
          injection h2 with hb ht
          exact hb.symm

theorem tableMove_inv (W : String → Nat) (t1 : Table) (cell1 : Paragraph) (ac n : Nat × Nat)
    (cmd : Command) (b : Bool) (t' : Table)
    (hpres : (lookupCell ac t1.cells).isSome = true)
    (h : tableMove W t1 cell1 ac n cmd = some (b, t')) :
    t'.active_cell = some n ∧
    (∃ r, lookupCell n t'.cells = some r ∧ r.cursor.isSome = true) ∧
    ∀ k q, k ≠ n → lookupCell k t'.cells = some q →
      (k = ac ∧ q.cursor = none) ∨ (k ≠ ac ∧ lookupCell k t1.cells = some q) := by
  simp only [tableMove] at h
  split at h
  · simp at h
  · rename_i col hcol
    split at h
    · simp at h
    · rename_i x cell2 hleave
      split at h
      · simp at h
      · rename_i ncell hlkn
        split at h
        · simp at h
        · rename_i y ncell2 henter
          injection h with h2
          injection h2 with hb ht
          subst ht
          obtain ⟨v, hv⟩ := Option.isSome_iff_exists.mp hpres
          refine ⟨rfl, ⟨ncell2, ?_, ?_⟩, ?_⟩
          · exact lookupCell_updateCell_self n ncell2 ncell _ hlkn
          · by_cases hhor : cmd.horizontal = true
            · rw [if_pos hhor] at henter
              exact enterH_cursor_isSome W ncell _ y ncell2 henter
            · rw [if_neg hhor] at henter
              exact enterV_cursor_isSome W ncell col _ y ncell2 henter
          · intro k q hk hlq
            dsimp only at hlq
            rw [lookupCell_updateCell_ne n k ncell2 _ hk] at hlq
            by_cases hac : k = ac
            · subst hac
              rw [lookupCell_updateCell_self k cell2 v t1.cells hv] at hlq
              injection hlq with hq
              exact Or.inl ⟨rfl, hq ▸ cursorLeave_cursor_none W cell1 x cell2 hleave⟩
            · rw [lookupCell_updateCell_ne ac k cell2 t1.cells hac] at hlq
              exact Or.inr ⟨hac, hlq⟩

theorem tableInv_update_active (t : Table) (ac : Nat × Nat) (cell0 cell1 : Paragraph)
    (hact : t.active_cell = some ac)
    (hlk : lookupCell ac t.cells = some cell0)
    (hoth : ∀ k p, k ≠ ac → lookupCell k t.cells = some p → p.cursor = none)
    (hc1 : cell1.cursor.isSome = true) :
    TableInv { t with cells := updateCell ac cell1 t.cells } := by
  constructor
  · intro c hc
    dsimp only at hc
    rw [hact] at hc
    injection hc with hc
    subst hc
    refine ⟨⟨cell1, lookupCell_updateCell_self ac cell1 cell0 t.cells hlk, hc1⟩, ?_⟩
    intro k p hk hl
    dsimp only at hl
    rw [lookupCell_updateCell_ne ac k cell1 t.cells hk] at hl
    exact hoth k p hk hl
  · intro hnone
    dsimp only at hnone
    rw [hact] at hnone
    exact Option.noConfusion hnone

theorem tableInv_of_move (W : String → Nat) (t : Table) (ac n : Nat × Nat)
    (cell0 cell1 : Paragraph) (cmd : Command) (b : Bool) (t' : Table)
    (hlk : lookupCell ac t.cells = some cell0)
    (hoth : ∀ k p, k ≠ ac → lookupCell k t.cells = some p → p.cursor = none)
    (h : tableMove W { t with cells := updateCell ac cell1 t.cells } cell1 ac n cmd
          = some (b, t')) :
    TableInv t' := by
  have hpres : (lookupCell ac (updateCell ac cell1 t.cells)).isSome = true := by
    rw [lookupCell_updateCell_self ac cell1 cell0 t.cells hlk]
    rfl
  obtain ⟨hact', ⟨r, hr, hrs⟩, hoth'⟩ :=
    tableMove_inv W _ cell1 ac n cmd b t' hpres h
  constructor
  · intro c hc
    rw [hact'] at hc
    injection hc with hc
    subst hc
    refine ⟨⟨r, hr, hrs⟩, ?_⟩
    intro k p hk hl
    rcases hoth' k p hk hl with ⟨_, hq⟩ | ⟨hkac, hl2⟩
    · exact hq
    · dsimp only at hl2
      rw [lookupCell_updateCell_ne ac k cell1 t.cells hkac] at hl2
      exact hoth k p hkac hl2
  · intro hnone
    rw [hact'] at hnone
    exact Option.noConfusion hnone

theorem tableEnter_inv (W : String → Nat) (t : Table) (cmd : Command) (b : Bool) (t' : Table)
    (hallnone : ∀ k p, lookupCell k t.cells = some p → p.cursor = none)
    (hset : ∀ (c0 r : Paragraph) (x : Bool),
        Paragraph.command W c0 cmd = some (x, r) → r.cursor.isSome = true)
    (h : tableEnter W t cmd = some (b, t')) : TableInv t' := by
  simp only [tableEnter] at h
  split at h
  · simp at h
  · rename_i c0 hc0
    split at h
    · simp at h
    · rename_i x c1 hcmd
      injection h with h2
      injection h2 with hb ht
      subst ht
      constructor
      · intro c hc
        dsimp only at hc
        injection hc with hc
        subst hc
        refine ⟨⟨c1, lookupCell_updateCell_self _ c1 c0 t.cells hc0,
            hset c0 c1 x hcmd⟩, ?_⟩
        intro k p hk hl
        dsimp only at hl
        rw [lookupCell_updateCell_ne (0, 0) k c1 t.cells hk] at hl
        exact hallnone k p hl
      · intro hnone
        dsimp only at hnone
        exact Option.noConfusion hnone

/-- C4 (amended): every Table-level command other than CursorLeave that
completes without a hard failure preserves the focus invariant: an active
cell's Paragraph keeps a set cursor, all other Paragraphs in the table keep
cursor None, and with no active cell no Paragraph has a set cursor.
(CursorLeave itself breaks the invariant, see the counterexample.) -/
theorem c4_table_focus_invariant (W : String → Nat) (t : Table) (cmd : Command) (b : Bool)
    (t' : Table) (hinv : TableInv t) (hne : cmd ≠ Command.CursorLeave)
    (h : Table.command W t cmd = some (b, t')) : TableInv t' := by
  obtain ⟨hsome, hnone⟩ := hinv
  simp only [Table.command] at h
  split at h
  case _ ac hact =>
    obtain ⟨⟨cell0, hlk0, hc0⟩, hoth⟩ := hsome ac hact
    split at h
    · exact Option.noConfusion h
    rename_i nb hnb
    split at h
    · exact Option.noConfusion h
    rename_i cell hcell
    rw [hlk0] at hcell
    injection hcell with hcell
    subst hcell
    split at h
    · exact Option.noConfusion h
    rename_i handled cell1 hpc
    have hc1 : cell1.cursor.isSome = true :=
      command_cursor_isSome W cell0 cmd handled cell1 hne hc0 hpc
    cases cmd <;> (try cases ‹Motion›) <;> cases handled <;> cases nb <;>
      simp only [tableDispatch] at h <;>
      first
        | exact Option.noConfusion h
        | (injection h with h2; injection h2 with hb ht; subst ht;
           exact tableInv_update_active t ac cell0 cell1 hact hlk0 hoth hc1)
        | exact tableInv_of_move W t ac _ cell0 cell1 _ b t' hlk0 hoth h
  case _ hact =>
    have hall := hnone hact
    split at h
    · exact tableEnter_inv W t _ b t' hall
        (fun c0 r x hcmd => enterH_cursor_isSome W c0 false x r hcmd) h
    · exact tableEnter_inv W t _ b t' hall
        (fun c0 r x hcmd => enterV_cursor_isSome W c0 _ false x r hcmd) h
    · injection h with h2
      injection h2 with hb ht
      subst ht
      exact ⟨hsome, hnone⟩

theorem lookupCell_singleton (k q : Nat × Nat) (pa : Paragraph) :
    lookupCell k [(q, pa)] = if q = k then some pa else none := rfl

/-- C4 counterexample: CursorLeave sent to a table with an active cell is
handled by the cell's Paragraph (cursor cleared) while `active_cell` stays
set, so the focus invariant is broken by a Table-level command. -/
theorem c4_counterexample :
    TableInv ⟨[((0, 0), ⟨["a"], some 0⟩)], some (0, 0), 1, 1⟩ ∧
    Table.command unitWidth ⟨[((0, 0), ⟨["a"], some 0⟩)], some (0, 0), 1, 1⟩
      Command.CursorLeave
      = some (true, ⟨[((0, 0), ⟨["a"], none⟩)], some (0, 0), 1, 1⟩) ∧
    ¬ TableInv ⟨[((0, 0), ⟨["a"], none⟩)], some (0, 0), 1, 1⟩ := by
  refine ⟨⟨?_, ?_⟩, rfl, ?_⟩
  · intro c hc
    injection hc with hc
    subst hc
    refine ⟨⟨⟨["a"], some 0⟩, rfl, rfl⟩, ?_⟩
    intro k p hk hl
    by_cases h00 : ((0, 0) : Nat × Nat) = k
    · exact absurd h00.symm hk
    · rw [lookupCell_singleton, if_neg h00] at hl
      exact Option.noConfusion hl
  · intro hn
    exact Option.noConfusion hn
  · intro hbad
    obtain ⟨⟨p, hp, hps⟩, _⟩ := hbad.1 (0, 0) rfl
    have hp2 : some (⟨["a"], none⟩ : Paragraph) = some p := hp
    injection hp2 with he
    rw [← he] at hps
    exact Bool.noConfusion hps

/-- C4 witness: a table satisfying the invariant keeps it after an Insert. -/
theorem c4_witness : TableInv ⟨[((0, 0), ⟨["b", "a"], some 1⟩)], some (0, 0), 1, 1⟩ := by
  refine c4_table_focus_invariant unitWidth
    ⟨[((0, 0), ⟨["a"], some 0⟩)], some (0, 0), 1, 1⟩
    (Command.Insert ["b"]) true _ ⟨?_, ?_⟩ (by decide) rfl
  · intro c hc
    injection hc with hc
    subst hc
    refine ⟨⟨⟨["a"], some 0⟩, rfl, rfl⟩, ?_⟩
    intro k p hk hl
    by_cases h00 : ((0, 0) : Nat × Nat) = k
    · exact absurd h00.symm hk
    · rw [lookupCell_singleton, if_neg h00] at hl
      exact Option.noConfusion hl
  · intro hn
    exact Option.noConfusion hn

/-- C1 (amended): Paragraph dispatch terminates normally with a boolean for
every command, provided the text is non-empty, the cursor (when set) is in
bounds, and an Insert payload carries no line break.  Outside these
conditions dispatch can hard-fail (see the counterexample), as it can at
Table/Document level (neighbor underflow at the zero edge, unwraps of
missing cells, the unhandled-command todo arm). -/
theorem c1_paragraph_dispatch_total (W : String → Nat) (p : Paragraph) (cmd : Command)
    (h1 : p.text ≠ []) (h2 : cursorInBounds p)
    (h3 : ∀ cs, cmd = Command.Insert cs → "\n" ∉ cs) :
    (Paragraph.command W p cmd).isSome = true := by
  obtain ⟨t, c⟩ := p
  have hlen : ¬ t.length = 0 := fun hh => h1 (List.length_eq_zero.mp hh)
  cases cmd with
  | Left =>
    cases c with
    | none => rfl
    | some i =>
      simp only [Paragraph.command]
      split <;> rfl
  | Right =>
    cases c with
    | none => rfl
    | some i =>
      simp only [Paragraph.command]
      rw [if_neg hlen]
      split <;> rfl
  | Up => cases c <;> rfl
  | Down => cases c <;> rfl
  | CursorLeave => cases c <;> rfl
  | CursorEnterH bb =>
    cases bb
    · rfl
    · simp only [Paragraph.command]
      rw [if_neg hlen]
      rfl
  | CursorEnterV col bb => rfl
  | Insert cs =>
    cases c with
    | none => rfl
    | some i =>
      have hnl := h3 cs rfl
      have hle : i ≤ t.length := h2
      simp only [Paragraph.command]
      rw [if_neg hnl, if_pos hle]
      rfl
  | Delete m =>
    cases m with
    | Left =>
      cases c with
      | none => rfl
      | some i =>
        by_cases hi : 0 < i
        · have hle : i ≤ t.length := h2
          have hlt : i - 1 < t.length := by omega
          simp only [Paragraph.command]
          rw [if_pos hi, if_pos hlt]
          rfl
        · simp only [Paragraph.command]
          rw [if_neg hi]
          rfl
    | Up => cases c <;> rfl
    | Down => cases c <;> rfl
    | Right => cases c <;> rfl

/-- C1 witness: a concrete in-bounds paragraph handles Left without a hard
failure. -/
theorem c1_witness : (Paragraph.command unitWidth ⟨["a"], some 0⟩ Command.Left).isSome = true :=
  c1_paragraph_dispatch_total unitWidth ⟨["a"], some 0⟩ Command.Left (by decide)
    (Nat.zero_le 1) (fun cs hcs => Command.noConfusion hcs)

/-- C1 counterexample: Insert of a payload containing a line break hits the
unimplemented line-breaking branch, a hard failure, refuting the claim that
no command ever causes one. -/
theorem c1_counterexample :
    Paragraph.command unitWidth ⟨["a"], some 0⟩ (Command.Insert ["\n"]) = none := rfl

/-- C2: on a 2-by-2 table with active cell (0,0), the Left command reaches
the unchecked `x - 1` in Table::neighbor, an arithmetic underflow, so
dispatch hard-fails instead of returning the "not handled" false that the
spec requires. -/
theorem c2_left_edge_hard_failure :
    Table.command unitWidth
      ⟨[((0, 0), ⟨["a"], some 0⟩), ((1, 0), ⟨["b"], none⟩),
        ((0, 1), ⟨["c"], none⟩), ((1, 1), ⟨["d"], none⟩)], some (0, 0), 2, 2⟩
      Command.Left = none := rfl

/-- C3 (amended): every Paragraph-level command that completes normally
keeps a set cursor within `0 <= i <= length`, except Right issued when the
cursor already equals the length, which overshoots to `length + 1` (see the
counterexample). -/
theorem c3_cursor_stays_in_bounds (W : String → Nat) (p : Paragraph) (cmd : Command) (b : Bool)
    (p' : Paragraph) (hinv : cursorInBounds p)
    (hr : cmd = Command.Right → ∀ i, p.cursor = some i → i ≠ p.text.length)
    (h : Paragraph.command W p cmd = some (b, p')) : cursorInBounds p' := by
  obtain ⟨t, c⟩ := p
  cases cmd with
  | Left =>
    cases c with
    | none =>
      injection h with h2
      injection h2 with hb hp
      subst hp
      exact hinv
    | some i =>
      have hle : i ≤ t.length := hinv
      simp only [Paragraph.command] at h
      split at h <;> (injection h with h2; injection h2 with hb hp; subst hp)
      · show i - 1 ≤ t.length
        omega
      · exact hinv
  | Right =>
    cases c with
    | none =>
      injection h with h2
      injection h2 with hb hp
      subst hp
      exact hinv
    | some i =>
      have hle : i ≤ t.length := hinv
      have hne : i ≠ t.length := hr rfl i rfl
      simp only [Paragraph.command] at h
      split at h
      · exact Option.noConfusion h
      · split at h <;> (injection h with h2; injection h2 with hb hp; subst hp)
        · show i + 1 ≤ t.length
          omega
        · exact hinv
  | Up =>
    cases c <;> (injection h with h2; injection h2 with hb hp; subst hp; exact hinv)
  | Down =>
    cases c <;> (injection h with h2; injection h2 with hb hp; subst hp; exact hinv)
  | CursorLeave =>
    cases c with
    | none =>
      injection h with h2
      injection h2 with hb hp
      subst hp
      exact hinv
    | some i =>
      injection h with h2
      injection h2 with hb hp
      subst hp
      exact trivial
  | CursorEnterH bb =>
    cases bb
    · injection h with h2
      injection h2 with hb hp
      subst hp
      exact Nat.zero_le _
    · simp only [Paragraph.command] at h
      split at h
      · exact Option.noConfusion h
      · injection h with h2
        injection h2 with hb hp
        subst hp
        show t.length - 1 ≤ t.length
        omega
  | CursorEnterV col bb =>
    injection h with h2
    injection h2 with hb hp
    subst hp
    show setNormAux col (t.map fun s => min (W s) 2) 0 ≤ t.length
    simpa using setNormAux_le (t.map fun s => min (W s) 2) col 0
  | Insert cs =>
    cases c with
    | none =>
      injection h with h2
      injection h2 with hb hp
      subst hp
      exact hinv
    | some i =>
      have hle : i ≤ t.length := hinv
      simp only [Paragraph.command] at h
      split_ifs at h <;>
        first
          | exact Option.noConfusion h
          | (injection h with h2; injection h2 with hb hp; subst hp;
             show i + cs.length ≤ (t.take i ++ cs ++ t.drop i).length;
             simp only [List.length_append, List.length_take, List.length_drop];
             omega)
  | Delete m =>
    cases m with
    | Left =>
      cases c with
      | none =>
        injection h with h2
        injection h2 with hb hp
        subst hp
        exact hinv
      | some i =>
        have hle : i ≤ t.length := hinv
        simp only [Paragraph.command] at h
        split_ifs at h <;>
          first
            | exact Option.noConfusion h
            | (injection h with h2; injection h2 with hb hp; subst hp; exact hinv)
            | (injection h with h2; injection h2 with hb hp; subst hp;
               have hlt2 : i - 1 < t.length := by omega;
               have hlen := List.length_eraseIdx_add_one hlt2;
               show i - 1 ≤ (t.eraseIdx (i - 1)).length;
               omega)
    | Up =>
      cases c <;> (injection h with h2; injection h2 with hb hp; subst hp; exact hinv)
    | Down =>
      cases c <;> (injection h with h2; injection h2 with hb hp; subst hp; exact hinv)
    | Right =>
      cases c <;> (injection h with h2; injection h2 with hb hp; subst hp; exact hinv)

/-- C3 witness: Left on an in-bounds paragraph keeps the cursor in bounds. -/
theorem c3_witness : cursorInBounds ⟨["a"], some 0⟩ :=
  c3_cursor_stays_in_bounds unitWidth ⟨["a"], some 0⟩ Command.Left false ⟨["a"], some 0⟩
    (Nat.zero_le 1) (fun hcmd => Command.noConfusion hcmd) rfl

/-- C3 counterexample: a reachable command sequence (enter an empty
paragraph, insert one grapheme, move Right) drives the cursor to index 2 on
a 1-grapheme text, violating `0 <= i <= length`. -/
theorem c3_counterexample :
    Paragraph.command unitWidth ⟨[], none⟩ (Command.CursorEnterH false)
      = some (true, ⟨[], some 0⟩) ∧
    Paragraph.command unitWidth ⟨[], some 0⟩ (Command.Insert ["a"])
      = some (true, ⟨["a"], some 1⟩) ∧
    cursorInBounds ⟨["a"], some 1⟩ ∧
    Paragraph.command unitWidth ⟨["a"], some 1⟩ Command.Right
      = some (true, ⟨["a"], some 2⟩) ∧
    ¬ cursorInBounds ⟨["a"], some 2⟩ := by
  refine ⟨rfl, rfl, Nat.le_refl 1, rfl, ?_⟩
  intro hc
  have h21 : (2 : Nat) ≤ 1 := hc
  omega

/-- C5 counterexample: with grapheme count 2 and cursor 1 (so 1 < length),
Right returns false and does not move, because the code guard is
`i != length - 1`, not `i < length` as claimed. -/
theorem c5_counterexample :
    Paragraph.command unitWidth ⟨["a", "b"], some 1⟩ Command.Right
      = some (false, ⟨["a", "b"], some 1⟩) := rfl

/-- C5 (amended): on a non-empty paragraph with cursor Some i, Right sets
`i + 1` and returns true exactly when `i != length - 1`; when
`i = length - 1` it returns false and leaves the paragraph unchanged; on an
empty paragraph the guard's `length - 1` underflows, a hard failure. -/
theorem c5_right_guard (W : String → Nat) (p : Paragraph) (i : Nat) (hc : p.cursor = some i) :
    (p.text = [] → Paragraph.command W p Command.Right = none) ∧
    (p.text ≠ [] → i ≠ p.text.length - 1 →
      Paragraph.command W p Command.Right = some (true, { p with cursor := some (i + 1) })) ∧
    (p.text ≠ [] → i = p.text.length - 1 →
      Paragraph.command W p Command.Right = some (false, p)) := by
  obtain ⟨t, c⟩ := p
  cases c with
  | none => exact Option.noConfusion hc
  | some j =>
    injection hc with hj
    subst hj
    refine ⟨?_, ?_, ?_⟩
    · intro ht
      subst ht
      rfl
    · intro ht hne
      have hlen : ¬ t.length = 0 := fun hh => ht (List.length_eq_zero.mp hh)
      simp only [Paragraph.command]
      rw [if_neg hlen, if_pos hne]
    · intro ht heq
      have hlen : ¬ t.length = 0 := fun hh => ht (List.length_eq_zero.mp hh)
      simp only [Paragraph.command]
      rw [if_neg hlen, if_neg (not_not_intro heq)]

/-- C5 witness: Right from cursor 0 on a 2-grapheme paragraph advances to 1
and reports handled. -/
theorem c5_witness :
    Paragraph.command unitWidth ⟨["a", "b"], some 0⟩ Command.Right
      = some (true, ⟨["a", "b"], some 1⟩) :=
  (c5_right_guard unitWidth ⟨["a", "b"], some 0⟩ 0 rfl).2.1 (by decide) (by decide)

/-- C6 counterexample: CursorEnterH(true) on a 2-grapheme paragraph sets the
cursor to 1 = length - 1, not to length = 2 as claimed. -/
theorem c6_counterexample :
    Paragraph.command unitWidth ⟨["a", "b"], none⟩ (Command.CursorEnterH true)
      = some (true, ⟨["a", "b"], some 1⟩) ∧ (1 : Nat) ≠ 2 := ⟨rfl, by decide⟩

/-- C6 (amended): CursorEnterH(false) sets the cursor to 0 and returns true
for every paragraph; CursorEnterH(true) sets it to `length - 1` (not
`length`) and returns true on a non-empty paragraph, and on an empty
paragraph its `length - 1` underflows, a hard failure. -/
theorem c6_cursor_enter_horizontal (W : String → Nat) (p : Paragraph) :
    Paragraph.command W p (Command.CursorEnterH false)
      = some (true, { p with cursor := some 0 }) ∧
    (p.text ≠ [] → Paragraph.command W p (Command.CursorEnterH true)
      = some (true, { p with cursor := some (p.text.length - 1) })) ∧
    (p.text = [] → Paragraph.command W p (Command.CursorEnterH true) = none) := by
  obtain ⟨t, c⟩ := p
  refine ⟨?_, ?_, ?_⟩
  · cases c <;> rfl
  · intro ht
    have hlen : ¬ t.length = 0 := fun hh => ht (List.length_eq_zero.mp hh)
    cases c <;> (simp only [Paragraph.command]; rw [if_neg hlen])
  · intro ht
    subst ht
    cases c <;> rfl

/-- C6 witness: entering from the right on a 2-grapheme paragraph lands on
index 1. -/
theorem c6_witness :
    Paragraph.command unitWidth ⟨["a", "b"], some 0⟩ (Command.CursorEnterH true)
      = some (true, ⟨["a", "b"], some 1⟩) :=
  (c6_cursor_enter_horizontal unitWidth ⟨["a", "b"], some 0⟩).2.1 (by decide)

/-- C7 counterexample: Delete(Left) at cursor 0 returns false at the
Paragraph level (the claim says the Paragraph returns true as a no-op). -/
theorem c7_counterexample :
    Paragraph.command unitWidth ⟨["a"], some 0⟩ (Command.Delete Motion.Left)
      = some (false, ⟨["a"], some 0⟩) := rfl

/-- C7 (amended): Delete(Left) with cursor Some i, `0 < i <= length`,
removes the grapheme before the cursor, decrements the cursor and returns
true; with `i = 0` the Paragraph itself returns false as a no-op, and it is
the enclosing Table that swallows the boundary case, reporting true with
the table unchanged. -/
theorem c7_delete_left (W : String → Nat) (p : Paragraph) (i : Nat)
    (hc : p.cursor = some i) (hle : i ≤ p.text.length) :
    (0 < i → Paragraph.command W p (Command.Delete Motion.Left)
      = some (true, { p with text := p.text.eraseIdx (i - 1), cursor := some (i - 1) })) ∧
    (i = 0 → Paragraph.command W p (Command.Delete Motion.Left) = some (false, p)) ∧
    (i = 0 → ∀ (tb : Table) (ac : Nat × Nat), tb.active_cell = some ac →
      lookupCell ac tb.cells = some p →
      Table.command W tb (Command.Delete Motion.Left) = some (true, tb)) := by
  obtain ⟨tx, c⟩ := p
  have hc2 : c = some i := hc
  subst hc2
  have hle2 : i ≤ tx.length := hle
  have hp0 : i = 0 → Paragraph.command W ⟨tx, some i⟩ (Command.Delete Motion.Left)
      = some (false, ⟨tx, some i⟩) := by
    intro hi
    subst hi
    simp only [Paragraph.command]
    rw [if_neg (lt_irrefl 0)]
  refine ⟨?_, hp0, ?_⟩
  · intro hi
    have hlt : i - 1 < tx.length := by omega
    simp only [Paragraph.command]
    rw [if_pos hi, if_pos hlt]
  · intro hi tb ac hact hlk
    subst hi
    simp only [Table.command, hact]
    have hnb : Table.neighbor tb (Command.Delete Motion.Left) = some none := by
      simp [Table.neighbor, hact]
    simp only [hnb, hlk, hp0 rfl]
    simp only [tableDispatch]
    rw [updateCell_id ac _ tb.cells hlk, ← hact]

/-- C7 witness: deleting left from cursor 1 on "ab" removes "a" and moves
the cursor to 0. -/
theorem c7_witness :
    Paragraph.command unitWidth ⟨["a", "b"], some 1⟩ (Command.Delete Motion.Left)
      = some (true, ⟨["b"], some 0⟩) :=
  (c7_delete_left unitWidth ⟨["a", "b"], some 1⟩ 1 rfl (by decide)).1 (by decide)

theorem tableEnter_true (W : String → Nat) (t : Table) (cmd : Command) (b : Bool) (t2 : Table)
    (h : tableEnter W t cmd = some (b, t2)) : b = true := by
  simp only [tableEnter] at h
  split at h
  · exact Option.noConfusion h
  · split at h
    · exact Option.noConfusion h
    · injection h with h2
      injection h2 with hb ht
      exact hb.symm

theorem table_command_false_id (W : String → Nat) (t : Table) (cmd : Command) (t2 : Table)
    (h : Table.command W t cmd = some (false, t2)) : t2 = t := by
  simp only [Table.command] at h
  split at h
  case _ ac hact =>
    exfalso
    split at h
    · exact Option.noConfusion h
    rename_i nb hnb
    split at h
    · exact Option.noConfusion h
    rename_i cell hcell
    split at h
    · exact Option.noConfusion h
    rename_i handled cell1 hpc
    cases cmd <;> (try cases ‹Motion›) <;> cases handled <;> cases nb <;>
      simp only [tableDispatch] at h <;>
      first
        | exact Option.noConfusion h
        | (injection h with h2; injection h2 with hb ht; exact Bool.noConfusion hb)
        | exact Bool.noConfusion (tableMove_true W _ cell1 ac _ _ false t2 h)
        | (simp only [Table.neighbor, hact] at hnb; try split_ifs at hnb;
           simp_all)
  case _ hact =>
    split at h
    · exact Bool.noConfusion (tableEnter_true W t _ false t2 h)
    · exact Bool.noConfusion (tableEnter_true W t _ false t2 h)
    · injection h with h2
      injection h2 with hb ht
      exact ht.symm

/-- C8 (amended): a directional command at the matching edge of the Document
(first element for Up/Left, last for Down/Right) that the active element
does not handle is absorbed: the dispatch returns TRUE (not false as
claimed) and the document state is unchanged. -/
theorem c8_edge_command_absorbed (W : String → Nat) (d : Document) (cmd : Command)
    (el el1 : Table)
    (hget : d.elements.get? d.active_element = some el)
    (hedge : (d.active_element = 0 ∧ (cmd = Command.Up ∨ cmd = Command.Left)) ∨
             (d.active_element = d.elements.length - 1 ∧
               (cmd = Command.Down ∨ cmd = Command.Right)))
    (hel : Table.command W el cmd = some (false, el1)) :
    Document.command W d cmd = some (true, d) := by
  have hid : el1 = el := table_command_false_id W el cmd el1 hel
  rw [hid] at hel
  have hset : d.elements.set d.active_element el = d.elements := list_set_get_id _ _ _ hget
  rcases hedge with ⟨h0, rfl | rfl⟩ | ⟨hl, rfl | rfl⟩ <;>
    simp only [Document.command, hget, hel]
  · rw [h0, if_neg (Nat.lt_irrefl 0)]
    rw [show d.elements.set 0 el = d.elements from h0 ▸ hset, ← h0]
  · rw [h0, if_neg (Nat.lt_irrefl 0)]
    rw [show d.elements.set 0 el = d.elements from h0 ▸ hset, ← h0]
  · rw [hl, if_neg (Nat.lt_irrefl _)]
    rw [show d.elements.set (d.elements.length - 1) el = d.elements from hl ▸ hset, ← hl]
  · rw [hl, if_neg (Nat.lt_irrefl _)]
    rw [show d.elements.set (d.elements.length - 1) el = d.elements from hl ▸ hset, ← hl]

/-- C8 witness: a one-element document with an unfocused table absorbs Right
at the last element, reporting handled with no state change. -/
theorem c8_witness :
    Document.command unitWidth ⟨[⟨[], none, 0, 0⟩], 0⟩ Command.Right
      = some (true, ⟨[⟨[], none, 0, 0⟩], 0⟩) :=
  c8_edge_command_absorbed unitWidth ⟨[⟨[], none, 0, 0⟩], 0⟩ Command.Right
    ⟨[], none, 0, 0⟩ ⟨[], none, 0, 0⟩ rfl (Or.inr ⟨rfl, Or.inr rfl⟩) rfl

/-- C8 counterexample: at the first element, an unhandled Left is absorbed
with return value TRUE, refuting the claim that the Document returns
false. -/
theorem c8_counterexample :
    Document.command unitWidth ⟨[⟨[], none, 0, 0⟩], 0⟩ Command.Left
      = some (true, ⟨[⟨[], none, 0, 0⟩], 0⟩) := rfl

theorem setNormAux_ones (ws : List Nat) (hones : ∀ w ∈ ws, w = 1) :
    ∀ n acc, n ≤ ws.length → setNormAux n ws acc = acc + n := by
  induction ws with
  | nil =>
    intro n acc hn
    have hn0 : n = 0 := Nat.le_zero.mp hn
    subst hn0
    simp [setNormAux]
  | cons w tl ih =>
    intro n acc hn
    cases n with
    | zero => simp [setNormAux]
    | succ m =>
      have hw : w = 1 := hones w (by simp)
      simp only [setNormAux, hw]
      rw [if_pos (by omega : 1 ≤ m + 1)]
      have htl : ∀ v ∈ tl, v = 1 := fun v hv => hones v (by simp [hv])
      have hm : m ≤ tl.length := by
        simp only [List.length_cons] at hn
        omega
      rw [show m + 1 - 1 = m from by omega, ih htl m (acc + 1) hm]
      omega

/-- C9: the wide-grapheme normalized-column round trip.  For the paragraph
with graphemes 好 (width 2) and h (width 1) and cursor index 1, the
index-to-column conversion yields column 2; applying the column-to-index
conversion with target 2 to any line of single-width graphemes of length at
least 2 yields index 2 (whose column is again 2); and applying it back to
the original paragraph with that column yields index 1 again. -/
theorem c9_wide_column_roundtrip (W : String → Nat) (l : List String)
    (hwide : W "好" = 2) (hone : W "h" = 1)
    (hones : ∀ s ∈ l, W s = 1) (hlen : 2 ≤ l.length) :
    Paragraph.get_normalized_cursor W ⟨["好", "h"], some 1⟩ = some 2 ∧
    (Paragraph.set_normalized_cursor W ⟨l, none⟩ 2).cursor = some 2 ∧
    Paragraph.get_normalized_cursor W ⟨l, some 2⟩ = some 2 ∧
    (Paragraph.set_normalized_cursor W ⟨["好", "h"], some 1⟩ 2).cursor = some 1 := by
  refine ⟨?_, ?_, ?_, ?_⟩
  · simp [Paragraph.get_normalized_cursor, hwide]
  · have hmap : ∀ w ∈ l.map (fun s => min (W s) 2), w = 1 := by
      intro w hw
      obtain ⟨s, hs, rfl⟩ := List.mem_map.mp hw
      simp [hones s hs]
    simp only [Paragraph.set_normalized_cursor]
    rw [setNormAux_ones (l.map (fun s => min (W s) 2)) hmap 2 0 (by simpa using hlen)]
  · match l, hlen with
    | a :: b :: rest, _ =>
      have ha : W a = 1 := hones a (by simp)
      have hb : W b = 1 := hones b (by simp)
      simp [Paragraph.get_normalized_cursor, ha, hb]
  · simp only [Paragraph.set_normalized_cursor, List.map_cons, List.map_nil, hwide, hone]
    norm_num [setNormAux]

/-- C9 witness: the round trip at the concrete width table (好 wide, all
else single width) and the single-width line x, y. -/
theorem c9_witness :
    Paragraph.get_normalized_cursor (fun s => if s = "好" then 2 else 1)
      ⟨["好", "h"], some 1⟩ = some 2 ∧
    (Paragraph.set_normalized_cursor (fun s => if s = "好" then 2 else 1)
      ⟨["x", "y"], none⟩ 2).cursor = some 2 ∧
    Paragraph.get_normalized_cursor (fun s => if s = "好" then 2 else 1)
      ⟨["x", "y"], some 2⟩ = some 2 ∧
    (Paragraph.set_normalized_cursor (fun s => if s = "好" then 2 else 1)
      ⟨["好", "h"], some 1⟩ 2).cursor = some 1 :=
  c9_wide_column_roundtrip (fun s => if s = "好" then 2 else 1) ["x", "y"]
    (by decide) (by decide) (by decide) (by decide)

/-- Iterated backward deletion: apply Delete(Left) n times, requiring each
step to be handled. -/
def deleteLeftN (W : String → Nat) : Nat → Paragraph → Option Paragraph
  | 0, p => some p
  | n + 1, p =>
    match Paragraph.command W p (Command.Delete Motion.Left) with
    | some (true, p1) => deleteLeftN W n p1
    | _ => none

theorem deleteLeftN_append (W : String → Nat) (cs : List String) : ∀ s u : List String,
    deleteLeftN W cs.length ⟨s ++ cs ++ u, some (s.length + cs.length)⟩
      = some ⟨s ++ u, some s.length⟩ := by
  induction cs using List.reverseRecOn with
  | nil =>
    intro s u
    simp [deleteLeftN]
  | append_singleton ds c ih =>
    intro s u
    have hcl : (ds ++ [c]).length = ds.length + 1 := by simp
    rw [hcl]
    have hcmd : Paragraph.command W
        ⟨s ++ (ds ++ [c]) ++ u, some (s.length + (ds.length + 1))⟩
        (Command.Delete Motion.Left)
        = some (true, ⟨s ++ ds ++ u, some (s.length + ds.length)⟩) := by
      simp only [Paragraph.command]
      rw [if_pos (by omega : 0 < s.length + (ds.length + 1))]
      rw [if_pos (by simp only [List.length_append, List.length_cons]; omega :
        s.length + (ds.length + 1) - 1 < (s ++ (ds ++ [c]) ++ u).length)]
      have harr : s ++ (ds ++ [c]) ++ u = (s ++ ds) ++ c :: u := by
        simp [List.append_assoc]
      have hidx : s.length + (ds.length + 1) - 1 = (s ++ ds).length := by
        simp only [List.length_append]
        omega
      rw [hidx, harr, eraseIdx_append_cons]
      simp [List.length_append, List.append_assoc]
    simp only [deleteLeftN, hcmd]
    exact ih s u

/-- C10: the insert/delete round trip.  Inserting a non-empty line-break-free
grapheme sequence at an in-bounds cursor succeeds, and the same number of
Delete(Left) commands (each handled) restores the original graphemes and the
original cursor exactly. -/
theorem c10_insert_delete_roundtrip (W : String → Nat) (t : List String) (i : Nat)
    (cs : List String) (hi : i ≤ t.length) (hne : cs ≠ []) (hnl : "\n" ∉ cs) :
    Paragraph.command W ⟨t, some i⟩ (Command.Insert cs)
      = some (true, ⟨t.take i ++ cs ++ t.drop i, some (i + cs.length)⟩) ∧
    deleteLeftN W cs.length ⟨t.take i ++ cs ++ t.drop i, some (i + cs.length)⟩
      = some ⟨t, some i⟩ := by
  constructor
  · simp only [Paragraph.command]
    rw [if_neg hnl, if_pos hi]
  · have hlen : (t.take i).length = i := by
      rw [List.length_take]
      omega
    have h2 := deleteLeftN_append W cs (t.take i) (t.drop i)
    rw [hlen] at h2
    rw [h2, List.take_append_drop]

/-- C10 witness: inserting b into a at cursor 0 and deleting once restores
the original paragraph. -/
theorem c10_witness :
    Paragraph.command unitWidth ⟨["a"], some 0⟩ (Command.Insert ["b"])
      = some (true, ⟨["b", "a"], some 1⟩) ∧
    deleteLeftN unitWidth 1 ⟨["b", "a"], some 1⟩ = some ⟨["a"], some 0⟩ :=
  c10_insert_delete_roundtrip unitWidth ["a"] 0 ["b"] (by decide) (by decide) (by decide)

end MdNote
